import Mathlib

/-!
Verification of the minimal hook-based plugin system in `jaclang/plugin.py`.

The embedding models Python dicts as insertion-ordered association lists with
unique keys (the operations below maintain exactly the dict behaviour the
source relies on: lookup, update-keeping-position, pop).  Python object
identity (`id(plugin)`) is modelled by a numeric `pid` carried by each plugin;
hook implementation callables are modelled as functions from keyword-argument
sets to `Option Nat`, where `none` is Python's `None`.  Signature inspection
(`_get_argnames`) is an external capability per the module's design, so each
scanned member carries its already-inspected `argnames` (`none` standing for
the ACCEPT_ALL sentinel returned when the callable takes `**kwargs` or is not
introspectable).
-/

set_option maxRecDepth 4000

/-- Lookup in a Python-dict-like association list: the value of the first
entry with the given key. -/
def dget {α β : Type} [DecidableEq α] : List (α × β) → α → Option β
  | [], _ => none
  | e :: rest, k => if e.1 = k then some e.2 else dget rest k

/-- Python dict assignment `d[k] = v`: replaces the value in place when the
key is present (keeping its insertion position), otherwise appends. -/
def dset {α β : Type} [DecidableEq α] : List (α × β) → α → β → List (α × β)
  | [], k, v => [(k, v)]
  | e :: rest, k, v => if e.1 = k then (k, v) :: rest else e :: dset rest k v

/-- Python `d.pop(k, None)` restricted to its effect on the table: removes the
first entry with the given key, if any. -/
def dpop {α β : Type} [DecidableEq α] : List (α × β) → α → List (α × β)
  | [], _ => []
  | e :: rest, k => if e.1 = k then rest else e :: dpop rest k

/-- Keys of the association list are pairwise distinct (the Python dict
invariant). -/
@[reducible] def dkeysNodup {α β : Type} (d : List (α × β)) : Prop := (d.map Prod.fst).Nodup

/-- Keyword-argument set passed to a hook dispatch (a Python `**kwargs` dict);
argument values are modelled as naturals. -/
abbrev Kwargs := List (String × Nat)

/-- A hook implementation callable: Python `None` results become `none`. -/
abbrev HookFn := Kwargs → Option Nat

/-- Embedding of the dict comprehension in `HookCaller._call_impl`:
`{name: kwargs[name] for name in impl.argnames if name in kwargs}`. -/
def filteredKwargs (argnames : List String) (kwargs : Kwargs) : Kwargs :=
  argnames.filterMap (fun n =>
    match dget kwargs n with
    | some v => some (n, v)
    | none => none)

/-- Embedding of class `HookImpl`: one hook implementation record.  `plugin`
is the owning plugin's identity (`id(plugin)` in the source, which compares
plugins with `is`); `argnames = none` is the ACCEPT_ALL sentinel produced by
`_get_argnames` for callables accepting `**kwargs`. -/
structure HookImpl where
  function : HookFn
  plugin : Nat
  plugin_name : String
  argnames : Option (List String)

/-- Embedding of the static method `HookCaller._call_impl`. -/
def call_impl (impl : HookImpl) (kwargs : Kwargs) : Option Nat :=
  match impl.argnames with
  | none => impl.function kwargs
  | some names => impl.function (filteredKwargs names kwargs)

/-- Return shape of `HookCaller.__call__`: a single optional value for
firstresult hooks, a list for collect-all hooks. -/
inductive DispatchResult where
  | one : Option Nat → DispatchResult
  | all : List Nat → DispatchResult
deriving DecidableEq

/-- Embedding of the firstresult loop in `HookCaller.__call__`: return the
first non-null result, else null. -/
def firstResultLoop (kwargs : Kwargs) : List HookImpl → Option Nat
  | [] => none
  | impl :: rest =>
    match call_impl impl kwargs with
    | some r => some r
    | none => firstResultLoop kwargs rest

/-- Embedding of the collect-all loop in `HookCaller.__call__`: append every
non-null result in iteration order. -/
def collectLoop (kwargs : Kwargs) : List HookImpl → List Nat
  | [] => []
  | impl :: rest =>
    match call_impl impl kwargs with
    | some r => r :: collectLoop kwargs rest
    | none => collectLoop kwargs rest

/-- Embedding of class `HookCaller`: implementations for one hook name plus
the firstresult policy. -/
structure HookCaller where
  name : String
  hookimpls : List HookImpl
  firstresult : Bool

/-- Embedding of `HookCaller._add_hookimpl`: append to the implementation
list. -/
def HookCaller.add_hookimpl (hc : HookCaller) (impl : HookImpl) : HookCaller :=
  { hc with hookimpls := hc.hookimpls ++ [impl] }

/-- Embedding of `HookCaller._remove_plugin`: keep only implementations whose
plugin is not (identity-wise) the given one. -/
def HookCaller.remove_plugin (hc : HookCaller) (pid : Nat) : HookCaller :=
  { hc with hookimpls := hc.hookimpls.filter (fun h => h.plugin != pid) }

/-- Embedding of `HookCaller.__call__`: iterate the implementation list in
reverse, branch on the firstresult policy. -/
def HookCaller.call (hc : HookCaller) (kwargs : Kwargs) : DispatchResult :=
  if hc.firstresult then DispatchResult.one (firstResultLoop kwargs hc.hookimpls.reverse)
  else DispatchResult.all (collectLoop kwargs hc.hookimpls.reverse)

/-- One entry of a class `__dict__` as visited by the MRO walk in
`PluginManager.register`.  `isCallable` is `callable(func)` after unwrapping
classmethod/staticmethod, `marked` is `getattr(func, _IMPL_ATTR, False)`,
`bound` is `getattr(plugin, attr_name, None)` (the bound method, `none` when
attribute access yields `None`), and `argnames` is the signature-inspection
result for that bound callable. -/
structure Member where
  attrName : String
  isCallable : Bool
  marked : Bool
  bound : Option HookFn
  argnames : Option (List String)

/-- A plugin object: its identity, its optional `__name__` attribute, its
type's name, and the MRO-ordered concatenation of its classes' `__dict__`
entries (the sequence the nested loops of `register` visit). -/
structure Plugin where
  pid : Nat
  declName : Option String
  typeName : String
  members : List Member

/-- Embedding of `_canonical_name`: `getattr(plugin, "__name__", None) or
type(plugin).__name__` (an empty string is falsy and falls through). -/
def canonical_name (p : Plugin) : String :=
  match p.declName with
  | some s => if s = "" then p.typeName else s
  | none => p.typeName

/-- Python `name or _canonical_name(plugin)` at the top of `register`. -/
def resolve_plugin_name (p : Plugin) (name : Option String) : String :=
  match name with
  | some s => if s = "" then canonical_name p else s
  | none => canonical_name p

/-- One advertised entry point: its group, its advertised name, and the
result of `ep.load()` (`none` when loading raises). -/
structure EntryPointData where
  group : String
  name : String
  load : Option Plugin

/-- Distribution metadata as read by `load_setuptools_entrypoints`; the
`metaVersion` is absent when the package metadata has no Version field. -/
structure Distribution where
  metaName : String
  metaVersion : Option String
  entry_points : List EntryPointData

/-- Embedding of `_DistFacade`'s observable fields. -/
structure DistFacade where
  project_name : String
  version : String

/-- Facade construction: `metadata["Name"]` and
`metadata.get("Version", "0.0.0")`. -/
def mkFacade (d : Distribution) : DistFacade :=
  ⟨d.metaName, d.metaVersion.getD "0.0.0"⟩

/-- Embedding of class `PluginManager`'s state.  `hook` is the `HookRelay`
namespace: a dict from hook name to `HookCaller` mirroring
`vars(self.hook)`. -/
structure PluginManager where
  project_name : String
  name2plugin : List (String × Plugin)
  plugin2name : List (Nat × String)
  plugin_distinfo : List (Plugin × DistFacade)
  hook : List (String × HookCaller)

/-- A freshly constructed `PluginManager("")`. -/
def freshManager : PluginManager := ⟨"", [], [], [], []⟩

/-- One step of the member scan in `PluginManager.register`: skip names
already seen, record the name as seen, and for callable marked members with a
resolvable bound method build a `HookImpl` and append it to the found-or-
created `HookCaller`. -/
def scanStep (pid : Nat) (plugin_name : String)
    (acc : List (String × HookCaller) × List String) (m : Member) :
    List (String × HookCaller) × List String :=
  let hooks := acc.1
  let seen := acc.2
  if m.attrName ∈ seen then (hooks, seen)
  else
    let seen := seen ++ [m.attrName]
    if m.isCallable then
      if m.marked then
        match m.bound with
        | none => (hooks, seen)
        | some f =>
          let impl : HookImpl := ⟨f, pid, plugin_name, m.argnames⟩
          match dget hooks m.attrName with
          | none => (dset hooks m.attrName (HookCaller.add_hookimpl ⟨m.attrName, [], false⟩ impl), seen)
          | some hc => (dset hooks m.attrName (hc.add_hookimpl impl), seen)
      else (hooks, seen)
    else (hooks, seen)

/-- The full member scan of `register`, threading the hook namespace and the
`seen` set over the plugin's MRO members. -/
def scanPlugin (hooks : List (String × HookCaller)) (p : Plugin) (plugin_name : String) :
    List (String × HookCaller) :=
  (p.members.foldl (scanStep p.pid plugin_name) (hooks, [])).1

/-- Embedding of `PluginManager.register`: no-op returning `none` when the
plugin identity is already registered, otherwise bind both tables, scan the
members into hook callers, and return the resolved name. -/
def register (pm : PluginManager) (p : Plugin) (name : Option String) :
    PluginManager × Option String :=
  let plugin_name := resolve_plugin_name p name
  match dget pm.plugin2name p.pid with
  | some _ => (pm, none)
  | none =>
    ({ pm with
        name2plugin := dset pm.name2plugin plugin_name p,
        plugin2name := dset pm.plugin2name p.pid plugin_name,
        hook := scanPlugin pm.hook p plugin_name },
      some plugin_name)

/-- The argument-resolution prelude of `PluginManager.unregister`: when no
plugin is supplied but a name is, look the plugin up by name. -/
def resolveTarget (pm : PluginManager) (plugin : Option Plugin) (name : Option String) :
    Option Plugin :=
  match plugin, name with
  | none, some n => dget pm.name2plugin n
  | pl, _ => pl

/-- The mutation body of `PluginManager.unregister` once a non-null plugin is
in hand: pop the identity binding, pop the recorded name binding, pop the
separately supplied name when it differs, and drop the plugin's
implementations from every hook caller. -/
def unregisterResolved (pm : PluginManager) (p : Plugin) (name : Option String) :
    PluginManager :=
  let plugin_name := dget pm.plugin2name p.pid
  let plugin2name := dpop pm.plugin2name p.pid
  let name2plugin :=
    match plugin_name with
    | some pn => dpop pm.name2plugin pn
    | none => pm.name2plugin
  let name2plugin :=
    match name with
    | some n => if plugin_name ≠ some n then dpop name2plugin n else name2plugin
    | none => name2plugin
  { pm with
      name2plugin := name2plugin,
      plugin2name := plugin2name,
      hook := pm.hook.map (fun e => (e.1, e.2.remove_plugin p.pid)) }

/-- Embedding of `PluginManager.unregister`, returning the new state and the
method's return value. -/
def unregister (pm : PluginManager) (plugin : Option Plugin) (name : Option String) :
    PluginManager × Option Plugin :=
  match resolveTarget pm plugin name with
  | none => (pm, none)
  | some p => (unregisterResolved pm p name, some p)

/-- Embedding of `PluginManager.is_registered`. -/
def is_registered (pm : PluginManager) (p : Plugin) : Bool :=
  (dget pm.plugin2name p.pid).isSome

/-- Embedding of `PluginManager.list_name_plugin`: `list(items())` of the
name table. -/
def list_name_plugin (pm : PluginManager) : List (String × Plugin) :=
  pm.name2plugin

/-- One marked method of a hook-spec class, as discovered by the
`dir(spec_class)` loop of `add_hookspecs`: its attribute name and the
`firstresult` flag stored by `HookspecMarker`. -/
structure HookSpec where
  attrName : String
  firstresult : Bool
deriving DecidableEq

/-- The per-marked-method body of `add_hookspecs`: find-or-create the named
hook caller and set its firstresult flag from the spec. -/
def applySpec (pm : PluginManager) (s : HookSpec) : PluginManager :=
  match dget pm.hook s.attrName with
  | none => { pm with hook := dset pm.hook s.attrName ⟨s.attrName, [], s.firstresult⟩ }
  | some hc => { pm with hook := dset pm.hook s.attrName { hc with firstresult := s.firstresult } }

/-- Embedding of `PluginManager.add_hookspecs`: for each marked method of the
spec class (in `dir()` order), find-or-create the named hook caller,
overwriting an existing caller's flag and keeping its implementations. -/
def add_hookspecs (pm : PluginManager) (specs : List HookSpec) : PluginManager :=
  specs.foldl applySpec pm

/-- The per-entry-point body of `load_setuptools_entrypoints`: skip group
mismatches, already-bound names, and failed loads; otherwise register under
the advertised name, record the distribution facade, and count. -/
def processEp (group : String) (d : Distribution) (acc : PluginManager × Nat)
    (ep : EntryPointData) : PluginManager × Nat :=
  let pm := acc.1
  let count := acc.2
  if ep.group ≠ group then (pm, count)
  else if (dget pm.name2plugin ep.name).isSome then (pm, count)
  else
    match ep.load with
    | none => (pm, count)
    | some plugin =>
      let pm := (register pm plugin (some ep.name)).1
      let pm := { pm with plugin_distinfo := pm.plugin_distinfo ++ [(plugin, mkFacade d)] }
      (pm, count + 1)

/-- Embedding of `PluginManager.load_setuptools_entrypoints`: the installed
distributions are the modelled external input; returns the new state and the
count. -/
def load_setuptools_entrypoints (pm : PluginManager) (dists : List Distribution)
    (group : String) : PluginManager × Nat :=
  dists.foldl (fun acc d => d.entry_points.foldl (processEp group d) acc) (pm, 0)

/-- A registration-lifecycle operation on the manager, for stating invariants
over arbitrary call sequences. -/
inductive MgrOp where
  | reg : Plugin → Option String → MgrOp
  | unreg : Option Plugin → Option String → MgrOp

/-- Apply one lifecycle operation, keeping the state. -/
def applyOp (pm : PluginManager) : MgrOp → PluginManager
  | MgrOp.reg p n => (register pm p n).1
  | MgrOp.unreg p n => (unregister pm p n).1

/-- Run a sequence of lifecycle operations from a fresh manager. -/
def runOps (ops : List MgrOp) : PluginManager :=
  ops.foldl applyOp freshManager

/-- The table invariant the code actually maintains: unique plugin
identities, unique names, and every name-table entry matched by the identity
table. -/
def managerInv (pm : PluginManager) : Prop :=
  dkeysNodup pm.name2plugin ∧ dkeysNodup pm.plugin2name ∧
    ∀ e ∈ pm.name2plugin, dget pm.plugin2name e.2.pid = some e.1

/-- The invariant as the spec claims it, including full mutual consistency of
the two tables in both directions. -/
@[reducible] def claimMutual (pm : PluginManager) : Prop :=
  dkeysNodup pm.name2plugin ∧ dkeysNodup pm.plugin2name ∧
    (∀ e ∈ pm.name2plugin, dget pm.plugin2name e.2.pid = some e.1) ∧
    (∀ e ∈ pm.plugin2name, (dget pm.name2plugin e.2).map Plugin.pid = some e.1)

/-- Number of hook implementation records owned by the given plugin identity
in the named hook caller. -/
def implCountFor (hooks : List (String × HookCaller)) (hname : String) (pid : Nat) : Nat :=
  match dget hooks hname with
  | none => 0
  | some hc => (hc.hookimpls.filter (fun i => i.plugin == pid)).length

/-- An entry point passes the static part of the loader's filters: matching
group and a load that succeeds. -/
def epSelected (group : String) (ep : EntryPointData) : Bool :=
  (ep.group == group) && ep.load.isSome

/-- All entry points of the given distributions, each paired with its
distribution, in visiting order. -/
def epPairs : List Distribution → List (EntryPointData × Distribution)
  | [] => []
  | d :: rest => d.entry_points.map (fun ep => (ep, d)) ++ epPairs rest

/-- The entry points the loader would act on, ignoring the stateful
name-already-bound check. -/
def selectedPairs (group : String) (dists : List Distribution) :
    List (EntryPointData × Distribution) :=
  (epPairs dists).filter (fun pr => epSelected group pr.1)

/-- Left-to-right processing of flattened entry-point pairs; equal to the
nested folds of `load_setuptools_entrypoints`. -/
def processPairs (group : String) : List (EntryPointData × Distribution) →
    PluginManager × Nat → PluginManager × Nat
  | [], acc => acc
  | (ep, d) :: rest, acc => processPairs group rest (processEp group d acc ep)

/-- The plugin delivered by a successfully loading entry point (dummy when
the load failed; only used on selected entry points). -/
def epLoadPlugin (ep : EntryPointData) : Plugin :=
  ep.load.getD ⟨0, none, "", []⟩

/-- Freshness of a batch of selected entry-point pairs relative to a manager
state: pairwise-distinct nonempty advertised names and plugin identities,
none of them already present in the manager. -/
@[reducible] def freshFor (pm : PluginManager) (prs : List (EntryPointData × Distribution)) : Prop :=
  (prs.map (fun pr => pr.1.name)).Nodup ∧
  (prs.map (fun pr => (epLoadPlugin pr.1).pid)).Nodup ∧
  ∀ pr ∈ prs, pr.1.name ≠ "" ∧ (dget pm.name2plugin pr.1.name).isNone = true ∧
    (dget pm.plugin2name (epLoadPlugin pr.1).pid).isNone = true

/-- Concrete hook implementation records used as evaluation inputs. -/
def implOf (k : Nat) : HookImpl := ⟨fun _ => some k, k, "p", none⟩

/-- A collect-all hook caller with three implementations registered in order
1, 2, 3. -/
def hcABC : HookCaller := ⟨"h", [implOf 1, implOf 2, implOf 3], false⟩

/-- A firstresult hook caller where the later-registered implementation
returns 7 and the earlier one returns 5. -/
def hcFR : HookCaller := ⟨"h", [⟨fun _ => some 5, 1, "A", none⟩, ⟨fun _ => some 7, 2, "B", none⟩], true⟩

/-- A hook implementation declaring only the parameter `x`. -/
def implX : HookImpl := ⟨fun kw => dget kw "x", 3, "X", some ["x"]⟩

/-- A marked, callable member named `h` for plugin A. -/
def hookMemberA : Member := ⟨"h", true, true, some (fun _ => some 1), none⟩

/-- A marked, callable member named `h` for plugin B. -/
def hookMemberB : Member := ⟨"h", true, true, some (fun _ => some 2), none⟩

/-- Plugin A: identity 1, one hook implementation for `h`. -/
def pluginA : Plugin := ⟨1, some "A", "A", [hookMemberA]⟩

/-- Plugin B: identity 2, one hook implementation for `h`. -/
def pluginB : Plugin := ⟨2, some "B", "B", [hookMemberB]⟩

/-- The manager after registering plugin A on a fresh manager. -/
def pmA : PluginManager := (register freshManager pluginA none).1

/-- The manager after registering plugins A then B on a fresh manager. -/
def pmAB : PluginManager := (register pmA pluginB none).1

/-- A plugin object that is never registered. -/
def ghostPlugin : Plugin := ⟨99, some "ghost", "Ghost", []⟩

/-- Colliding-name plugins for the table-consistency counterexample. -/
def pluginP1 : Plugin := ⟨11, some "P1", "P1", []⟩

/-- Second plugin registered under the same explicit name as `pluginP1`. -/
def pluginP2 : Plugin := ⟨12, some "P2", "P2", []⟩

/-- Register two distinct plugins under the same explicit name. -/
def collidingOps : List MgrOp :=
  [MgrOp.reg pluginP1 (some "x"), MgrOp.reg pluginP2 (some "x")]

/-- One plugin object advertised by two entry points under two names. -/
def dupPlugin : Plugin := ⟨7, some "p", "P", []⟩

/-- A distribution advertising the same plugin object twice. -/
def dupDist : Distribution :=
  ⟨"d", some "1.0", [⟨"g", "a", some dupPlugin⟩, ⟨"g", "b", some dupPlugin⟩]⟩

/-- A distribution mixing two loadable fresh plugins in the target group, one
entry point in another group, and one failing load. -/
def witDist : Distribution :=
  ⟨"fd", none,
    [⟨"g", "a", some pluginP1⟩, ⟨"h", "x", some pluginP2⟩, ⟨"g", "bad", none⟩,
     ⟨"g", "b", some pluginP2⟩]⟩

/-! Lemmas about the dict operations. -/

theorem dget_dset_self {α β : Type} [DecidableEq α] (d : List (α × β)) (k : α) (v : β) :
    dget (dset d k v) k = some v := by
  induction d with
  | nil => simp [dset, dget]
  | cons e rest ih =>
    by_cases h : e.1 = k
    · simp [dset, h, dget]
    · simp [dset, h, dget, ih]

theorem dget_dset_ne {α β : Type} [DecidableEq α] (d : List (α × β)) (k k' : α) (v : β)
    (h : k' ≠ k) : dget (dset d k v) k' = dget d k' := by
  induction d with
  | nil => simp [dset, dget, Ne.symm h]
  | cons e rest ih =>
    by_cases he : e.1 = k
    · have hek' : ¬ e.1 = k' := by rw [he]; exact Ne.symm h
      simp [dset, he, dget, Ne.symm h, hek']
    · simp only [dset, if_neg he, dget]
      by_cases he' : e.1 = k'
      · simp [he']
      · simp [he', ih]

theorem dget_dpop_ne {α β : Type} [DecidableEq α] (d : List (α × β)) (k k' : α)
    (h : k' ≠ k) : dget (dpop d k) k' = dget d k' := by
  induction d with
  | nil => simp [dpop]
  | cons e rest ih =>
    by_cases he : e.1 = k
    · have hkk' : ¬ k = k' := Ne.symm h
      simp [dpop, he, dget, hkk']
    · simp only [dpop, if_neg he, dget]
      by_cases he' : e.1 = k'
      · simp [he']
      · simp [he', ih]

theorem dget_eq_none_of_not_mem {α β : Type} [DecidableEq α] (d : List (α × β)) (k : α)
    (h : k ∉ d.map Prod.fst) : dget d k = none := by
  induction d with
  | nil => simp [dget]
  | cons e rest ih =>
    simp only [List.map_cons, List.mem_cons, not_or] at h
    simp [dget, Ne.symm h.1, ih h.2]

theorem not_mem_of_dget_eq_none {α β : Type} [DecidableEq α] (d : List (α × β)) (k : α)
    (h : dget d k = none) : ∀ e ∈ d, e.1 ≠ k := by
  induction d with
  | nil => simp
  | cons e rest ih =>
    intro f hf
    simp only [dget] at h
    by_cases he : e.1 = k
    · simp [he] at h
    · rcases List.mem_cons.mp hf with rfl | hmem
      · exact he
      · exact ih (by simpa [he] using h) f hmem

theorem mem_dpop_subset {α β : Type} [DecidableEq α] (d : List (α × β)) (k : α)
    (e : α × β) (h : e ∈ dpop d k) : e ∈ d := by
  induction d with
  | nil => simp [dpop] at h
  | cons f rest ih =>
    by_cases hf : f.1 = k
    · simp only [dpop, if_pos hf] at h
      exact List.mem_cons_of_mem f h
    · simp only [dpop, if_neg hf] at h
      rcases List.mem_cons.mp h with rfl | hmem
      · exact List.mem_cons_self e rest
      · exact List.mem_cons_of_mem f (ih hmem)

theorem mem_dpop {α β : Type} [DecidableEq α] (d : List (α × β)) (k : α)
    (e : α × β) (hnd : dkeysNodup d) (h : e ∈ dpop d k) : e ∈ d ∧ e.1 ≠ k := by
  induction d with
  | nil => simp [dpop] at h
  | cons f rest ih =>
    have hnd' : dkeysNodup rest := by
      simpa [dkeysNodup] using (List.nodup_cons.mp hnd).2
    by_cases hf : f.1 = k
    · simp only [dpop, if_pos hf] at h
      refine ⟨List.mem_cons_of_mem f h, ?_⟩
      have hfnot : f.1 ∉ rest.map Prod.fst := (List.nodup_cons.mp hnd).1
      intro hek
      exact hfnot (hf ▸ hek ▸ List.mem_map_of_mem Prod.fst h)
    · simp only [dpop, if_neg hf] at h
      rcases List.mem_cons.mp h with rfl | hmem
      · exact ⟨List.mem_cons_self e rest, hf⟩
      · rcases ih hnd' hmem with ⟨hm, hne⟩
        exact ⟨List.mem_cons_of_mem f hm, hne⟩

theorem mem_dset {α β : Type} [DecidableEq α] (d : List (α × β)) (k : α) (v : β)
    (e : α × β) (hnd : dkeysNodup d) (h : e ∈ dset d k v) :
    e = (k, v) ∨ (e ∈ d ∧ e.1 ≠ k) := by
  induction d with
  | nil => simp only [dset, List.mem_singleton] at h; exact Or.inl h
  | cons f rest ih =>
    have hnd' : dkeysNodup rest := by
      simpa [dkeysNodup] using (List.nodup_cons.mp hnd).2
    by_cases hf : f.1 = k
    · simp only [dset, if_pos hf] at h
      rcases List.mem_cons.mp h with rfl | hmem
      · exact Or.inl rfl
      · have hfnot : f.1 ∉ rest.map Prod.fst := (List.nodup_cons.mp hnd).1
        refine Or.inr ⟨List.mem_cons_of_mem f hmem, ?_⟩
        intro hek
        exact hfnot (hf ▸ hek ▸ List.mem_map_of_mem Prod.fst hmem)
    · simp only [dset, if_neg hf] at h
      rcases List.mem_cons.mp h with rfl | hmem
      · exact Or.inr ⟨List.mem_cons_self e rest, hf⟩
      · rcases ih hnd' hmem with rfl | ⟨hm, hne⟩
        · exact Or.inl rfl
        · exact Or.inr ⟨List.mem_cons_of_mem f hm, hne⟩

theorem mem_keys_dset {α β : Type} [DecidableEq α] (d : List (α × β)) (k : α) (v : β)
    (a : α) (h : a ∈ (dset d k v).map Prod.fst) : a = k ∨ a ∈ d.map Prod.fst := by
  induction d with
  | nil => simp only [dset, List.map_cons, List.map_nil, List.mem_singleton] at h; exact Or.inl h
  | cons f rest ih =>
    by_cases hf : f.1 = k
    · simp only [dset, if_pos hf, List.map_cons, List.mem_cons] at h
      rcases h with rfl | hmem
      · exact Or.inl rfl
      · exact Or.inr (by simp [hmem])
    · simp only [dset, if_neg hf, List.map_cons, List.mem_cons] at h
      rcases h with rfl | hmem
      · exact Or.inr (by simp)
      · rcases ih hmem with rfl | hm
        · exact Or.inl rfl
        · exact Or.inr (by simp [hm])

theorem dkeysNodup_dset {α β : Type} [DecidableEq α] (d : List (α × β)) (k : α) (v : β)
    (h : dkeysNodup d) : dkeysNodup (dset d k v) := by
  induction d with
  | nil => simp [dset, dkeysNodup]
  | cons f rest ih =>
    have hnot : f.1 ∉ rest.map Prod.fst := (List.nodup_cons.mp h).1
    have hnd' : dkeysNodup rest := by
      simpa [dkeysNodup] using (List.nodup_cons.mp h).2
    by_cases hf : f.1 = k
    · have h1 : dset (f :: rest) k v = (k, v) :: rest := by simp [dset, hf]
      show ((dset (f :: rest) k v).map Prod.fst).Nodup
      rw [h1, List.map_cons]
      exact List.nodup_cons.mpr ⟨hf ▸ hnot, (List.nodup_cons.mp h).2⟩
    · have h1 : dset (f :: rest) k v = f :: dset rest k v := by simp [dset, hf]
      show ((dset (f :: rest) k v).map Prod.fst).Nodup
      rw [h1, List.map_cons]
      refine List.nodup_cons.mpr ⟨?_, ih hnd'⟩
      intro hmem
      rcases mem_keys_dset rest k v f.1 hmem with hcase | hm
      · exact hf hcase
      · exact hnot hm

theorem dpop_keys_sublist {α β : Type} [DecidableEq α] (d : List (α × β)) (k : α) :
    List.Sublist ((dpop d k).map Prod.fst) (d.map Prod.fst) := by
  induction d with
  | nil => simp [dpop]
  | cons f rest ih =>
    by_cases hf : f.1 = k
    · simp only [dpop, if_pos hf, List.map_cons]
      exact List.sublist_cons_self _ _
    · simp only [dpop, if_neg hf, List.map_cons]
      exact List.Sublist.cons₂ _ ih

theorem dkeysNodup_dpop {α β : Type} [DecidableEq α] (d : List (α × β)) (k : α)
    (h : dkeysNodup d) : dkeysNodup (dpop d k) :=
  List.Nodup.sublist (dpop_keys_sublist d k) h

theorem mem_of_dget_eq_some {α β : Type} [DecidableEq α] (d : List (α × β)) (k : α) (v : β)
    (h : dget d k = some v) : (k, v) ∈ d := by
  induction d with
  | nil => simp [dget] at h
  | cons e rest ih =>
    by_cases he : e.1 = k
    · simp only [dget, if_pos he] at h
      have : e = (k, v) := by cases e; simp_all
      simp [this]
    · simp only [dget, if_neg he] at h
      exact List.mem_cons_of_mem e (ih h)

theorem dget_dpop_self {α β : Type} [DecidableEq α] (d : List (α × β)) (k : α)
    (h : dkeysNodup d) : dget (dpop d k) k = none := by
  cases hres : dget (dpop d k) k with
  | none => rfl
  | some v =>
    have hmem := mem_of_dget_eq_some (dpop d k) k v hres
    exact absurd rfl (mem_dpop d k (k, v) h hmem).2

theorem dget_map_snd {α β γ : Type} [DecidableEq α] (d : List (α × β)) (f : β → γ) (k : α) :
    dget (d.map (fun e => (e.1, f e.2))) k = (dget d k).map f := by
  induction d with
  | nil => simp [dget]
  | cons e rest ih =>
    by_cases he : e.1 = k
    · simp [dget, he]
    · simp [dget, he, ih]

/-! Lemmas about the dispatch loops and argument filtering. -/

theorem collectLoop_eq_filterMap (kwargs : Kwargs) (l : List HookImpl) :
    collectLoop kwargs l = l.filterMap (fun i => call_impl i kwargs) := by
  induction l with
  | nil => simp [collectLoop]
  | cons impl rest ih =>
    cases hc : call_impl impl kwargs with
    | none => simp [collectLoop, hc, List.filterMap_cons, ih]
    | some r => simp [collectLoop, hc, List.filterMap_cons, ih]

theorem firstResultLoop_eq_head (kwargs : Kwargs) (l : List HookImpl) :
    firstResultLoop kwargs l = (l.filterMap (fun i => call_impl i kwargs)).head? := by
  induction l with
  | nil => simp [firstResultLoop]
  | cons impl rest ih =>
    cases hc : call_impl impl kwargs with
    | none => simp [firstResultLoop, hc, List.filterMap_cons, ih]
    | some r => simp [firstResultLoop, hc, List.filterMap_cons]

theorem dget_filteredKwargs (ns : List String) (kwargs : Kwargs) (k : String) :
    dget (filteredKwargs ns kwargs) k = if k ∈ ns then dget kwargs k else none := by
  induction ns with
  | nil => simp [filteredKwargs, dget]
  | cons n rest ih =>
    by_cases hk : k = n
    · subst hk
      cases hv : dget kwargs k with
      | none =>
        simp only [filteredKwargs, List.filterMap_cons, hv]
        rw [show (filteredKwargs rest kwargs) = (filteredKwargs rest kwargs) from rfl] at ih
        simp only [filteredKwargs] at ih
        rw [ih]
        by_cases hmem : k ∈ rest <;> simp [hmem, hv]
      | some v =>
        simp [filteredKwargs, List.filterMap_cons, hv, dget]
    · cases hv : dget kwargs n with
      | none =>
        simp only [filteredKwargs, List.filterMap_cons, hv]
        simp only [filteredKwargs] at ih
        rw [ih]
        simp [List.mem_cons, hk]
      | some v =>
        simp only [filteredKwargs, List.filterMap_cons, hv, dget]
        simp only [filteredKwargs] at ih
        rw [if_neg (fun he => hk he.symm), ih]
        simp [List.mem_cons, hk]

/-! Theorems settling the claims about hook dispatch. -/

/-- C1: with `firstresult` false, dispatch invokes the implementations in
reverse registration order and returns exactly the non-null results in that
order (nulls skipped, possibly empty). -/
theorem hookcaller_collect_all_dispatch (hc : HookCaller) (kwargs : Kwargs)
    (h : hc.firstresult = false) :
    hc.call kwargs =
      DispatchResult.all (hc.hookimpls.reverse.filterMap (fun i => call_impl i kwargs)) := by
  simp [HookCaller.call, h, collectLoop_eq_filterMap]

/-- Witness for C1: plugins registered in order 1, 2, 3 produce the results
in order 3, 2, 1. -/
theorem hookcaller_collect_all_dispatch_witness :
    hcABC.firstresult = false ∧ hcABC.call [] = DispatchResult.all [3, 2, 1] := by
  refine ⟨rfl, ?_⟩
  rw [hookcaller_collect_all_dispatch hcABC [] rfl]
  rfl

/-- C2: with `firstresult` true, dispatch returns the first non-null result
in reverse registration order, and null when there is none (in particular
when no implementation is registered). -/
theorem hookcaller_firstresult_dispatch (hc : HookCaller) (kwargs : Kwargs)
    (h : hc.firstresult = true) :
    hc.call kwargs =
      DispatchResult.one ((hc.hookimpls.reverse.filterMap (fun i => call_impl i kwargs)).head?) := by
  simp [HookCaller.call, h, firstResultLoop_eq_head]

/-- Witness for C2: the later-registered implementation's result 7 wins over
the earlier 5. -/
theorem hookcaller_firstresult_dispatch_witness :
    hcFR.firstresult = true ∧ hcFR.call [] = DispatchResult.one (some 7) := by
  refine ⟨rfl, ?_⟩
  rw [hookcaller_firstresult_dispatch hcFR [] rfl]
  rfl

/-- C5: an implementation whose argnames is the ACCEPT_ALL sentinel is called
with the full keyword-argument set; otherwise it is called with exactly the
subset of the keyword arguments whose keys occur in its argnames, keys of
argnames missing from the supplied arguments being omitted. -/
theorem call_impl_argument_filtering (impl : HookImpl) (kwargs : Kwargs) :
    (impl.argnames = none → call_impl impl kwargs = impl.function kwargs) ∧
    (∀ ns, impl.argnames = some ns →
      call_impl impl kwargs = impl.function (filteredKwargs ns kwargs) ∧
      ∀ k, dget (filteredKwargs ns kwargs) k =
        if k ∈ ns then dget kwargs k else none) := by
  refine ⟨fun ha => by simp [call_impl, ha], fun ns ha => ⟨by simp [call_impl, ha], ?_⟩⟩
  intro k
  exact dget_filteredKwargs ns kwargs k

/-- Witness for C5: an implementation declaring only `x`, dispatched with
both `x` and `y`, receives `x` and not `y`. -/
theorem call_impl_argument_filtering_witness :
    call_impl implX [("x", 1), ("y", 2)] = implX.function [("x", 1)] ∧
    dget (filteredKwargs ["x"] [("x", 1), ("y", 2)]) "y" = none := by
  have h := (call_impl_argument_filtering implX [("x", 1), ("y", 2)]).2 ["x"] rfl
  refine ⟨h.1, ?_⟩
  rw [h.2 "y"]
  decide

/-! Theorems settling the registration and unregistration claims. -/

/-- C4: a second `register` call with an already-registered plugin object (by
identity) returns null and leaves the entire manager state, including every
hook caller, unchanged. -/
theorem register_duplicate_noop (pm : PluginManager) (p : Plugin) (name : Option String)
    (h : is_registered pm p = true) : register pm p name = (pm, none) := by
  have hd : ∃ s, dget pm.plugin2name p.pid = some s := by
    simpa [is_registered, Option.isSome_iff_exists] using h
  obtain ⟨s, hd⟩ := hd
  simp [register, hd]

/-- Witness for C4: plugin A registered once, registered again: null result,
unchanged state, and still exactly one implementation record for hook `h`. -/
theorem register_duplicate_noop_witness :
    is_registered pmA pluginA = true ∧
    register pmA pluginA none = (pmA, none) ∧
    implCountFor pmA.hook "h" pluginA.pid = 1 :=
  ⟨rfl, register_duplicate_noop pmA pluginA none rfl, rfl⟩

/-- C3 counterexample: a plugin object that was never registered is supplied
to `unregister` with no name, so neither argument resolves to a registered
plugin, yet the call returns the supplied object instead of null. -/
theorem unregister_unregistered_returns_plugin :
    is_registered freshManager ghostPlugin = false ∧
    (unregister freshManager (some ghostPlugin) none).2 ≠ none :=
  ⟨rfl, fun h => Option.noConfusion h⟩

/-- C3 amended: when no plugin object is supplied and the supplied name is
absent or does not resolve to a registered plugin, unregister returns null
and leaves the manager state unchanged; a non-null supplied plugin object is
returned as-is even when unregistered. -/
theorem unregister_null_plugin_unresolved_noop (pm : PluginManager) (name : Option String)
    (h : ∀ n, name = some n → dget pm.name2plugin n = none) :
    unregister pm none name = (pm, none) := by
  cases name with
  | none => simp [unregister, resolveTarget]
  | some n => simp [unregister, resolveTarget, h n rfl]

/-- Witness for C3's amended statement: an unbound name with no plugin leaves
the two-plugin manager untouched and yields null. -/
theorem unregister_null_plugin_unresolved_noop_witness :
    unregister pmAB none (some "zzz") = (pmAB, none) :=
  unregister_null_plugin_unresolved_noop pmAB (some "zzz") (fun n hn => by cases hn; rfl)

/-- Applying one spec leaves the hook entry of every other name unchanged. -/
theorem dget_applySpec_ne (pm : PluginManager) (s : HookSpec) (k : String)
    (h : s.attrName ≠ k) : dget (applySpec pm s).hook k = dget pm.hook k := by
  unfold applySpec
  cases hd : dget pm.hook s.attrName with
  | none => simp [hd, dget_dset_ne _ _ _ _ (Ne.symm h)]
  | some hc => simp [hd, dget_dset_ne _ _ _ _ (Ne.symm h)]

/-- Processing specs that never name `k` leaves `k`'s hook entry unchanged. -/
theorem add_hookspecs_preserves (specs : List HookSpec) (pm : PluginManager) (k : String)
    (h : ∀ s ∈ specs, s.attrName ≠ k) :
    dget (add_hookspecs pm specs).hook k = dget pm.hook k := by
  induction specs generalizing pm with
  | nil => rfl
  | cons t rest ih =>
    have ht : t.attrName ≠ k := h t (List.mem_cons_self t rest)
    have hrest : ∀ s ∈ rest, s.attrName ≠ k := fun s hs => h s (List.mem_cons_of_mem t hs)
    have hstep : add_hookspecs pm (t :: rest) = add_hookspecs (applySpec pm t) rest := rfl
    rw [hstep, ih (applySpec pm t) hrest, dget_applySpec_ne pm t k ht]

/-- C7: for every marked method of a processed spec class, the named hook
caller exists afterwards with its firstresult flag set to the spec's value,
and with the implementation list it had before (empty when it is newly
created), so the new policy governs subsequent dispatches while registered
implementations are kept. -/
theorem add_hookspecs_sets_policy (pm : PluginManager) (specs : List HookSpec)
    (s : HookSpec) (hmem : s ∈ specs) (hnd : (specs.map HookSpec.attrName).Nodup) :
    ∃ hc, dget (add_hookspecs pm specs).hook s.attrName = some hc ∧
      hc.firstresult = s.firstresult ∧
      hc.hookimpls = (match dget pm.hook s.attrName with
        | some hc0 => hc0.hookimpls
        | none => []) := by
  revert hmem hnd
  induction specs generalizing pm with
  | nil => intro hmem _; simp at hmem
  | cons t rest ih =>
    intro hmem hnd
    rw [List.map_cons] at hnd
    have hstep : add_hookspecs pm (t :: rest) = add_hookspecs (applySpec pm t) rest := rfl
    rcases List.mem_cons.mp hmem with rfl | hmem'
    · have hnott : ∀ u ∈ rest, u.attrName ≠ s.attrName := by
        intro u hu heq
        exact (List.nodup_cons.mp hnd).1 (heq ▸ List.mem_map_of_mem HookSpec.attrName hu)
      rw [hstep, add_hookspecs_preserves rest _ _ hnott]
      unfold applySpec
      cases hd : dget pm.hook s.attrName with
      | none =>
        refine ⟨⟨s.attrName, [], s.firstresult⟩, ?_, rfl, by simp [hd]⟩
        simp [dget_dset_self]
      | some hc0 =>
        refine ⟨{ hc0 with firstresult := s.firstresult }, ?_, rfl, by simp [hd]⟩
        simp [dget_dset_self]
    · have hne : t.attrName ≠ s.attrName := by
        intro heq
        exact (List.nodup_cons.mp hnd).1 (heq ▸ List.mem_map_of_mem HookSpec.attrName hmem')
      rw [hstep]
      have hpm' := ih (applySpec pm t) hmem' (List.nodup_cons.mp hnd).2
      rwa [dget_applySpec_ne pm t s.attrName hne] at hpm'

/-- Witness for C7: a firstresult spec declared after plugin A's
implementation is registered flips the existing caller's policy and keeps its
implementation list. -/
theorem add_hookspecs_sets_policy_witness :
    ∃ hc, dget (add_hookspecs pmA [⟨"h", true⟩]).hook "h" = some hc ∧
      hc.firstresult = true ∧
      hc.hookimpls = (match dget pmA.hook "h" with
        | some hc0 => hc0.hookimpls
        | none => []) :=
  add_hookspecs_sets_policy pmA [⟨"h", true⟩] ⟨"h", true⟩ (List.mem_singleton.mpr rfl)
    (by decide)

/-- C6: unregistering a currently registered plugin removes its identity and
name bindings (leaving all other bindings), removes exactly its
implementation records from every hook caller while preserving the relative
order of the remaining records, and returns the plugin object. -/
theorem unregister_removes_plugin_impls (pm : PluginManager) (p : Plugin) (pn : String)
    (hreg : dget pm.plugin2name p.pid = some pn)
    (hnd1 : dkeysNodup pm.name2plugin) (hnd2 : dkeysNodup pm.plugin2name) :
    (unregister pm (some p) none).2 = some p ∧
    dget (unregister pm (some p) none).1.plugin2name p.pid = none ∧
    (∀ q, q ≠ p.pid → dget (unregister pm (some p) none).1.plugin2name q = dget pm.plugin2name q) ∧
    dget (unregister pm (some p) none).1.name2plugin pn = none ∧
    (∀ m, m ≠ pn → dget (unregister pm (some p) none).1.name2plugin m = dget pm.name2plugin m) ∧
    (∀ hname, dget (unregister pm (some p) none).1.hook hname =
      (dget pm.hook hname).map (fun hc => HookCaller.remove_plugin hc p.pid)) ∧
    (∀ hname hc hc', dget pm.hook hname = some hc →
      dget (unregister pm (some p) none).1.hook hname = some hc' →
      List.Sublist hc'.hookimpls hc.hookimpls ∧
      (∀ i ∈ hc'.hookimpls, i.plugin ≠ p.pid) ∧
      (∀ i ∈ hc.hookimpls, i.plugin ≠ p.pid → i ∈ hc'.hookimpls)) := by
  have hu : unregister pm (some p) none = (unregisterResolved pm p none, some p) := rfl
  have hur : unregisterResolved pm p none =
      { pm with
          name2plugin := dpop pm.name2plugin pn,
          plugin2name := dpop pm.plugin2name p.pid,
          hook := pm.hook.map (fun e => (e.1, e.2.remove_plugin p.pid)) } := by
    simp [unregisterResolved, hreg]
  have hmap : ∀ hname, dget (unregister pm (some p) none).1.hook hname =
      (dget pm.hook hname).map (fun hc => HookCaller.remove_plugin hc p.pid) := by
    intro hname
    rw [hu]
    show dget (unregisterResolved pm p none).hook hname = _
    rw [hur]
    exact dget_map_snd pm.hook (fun hc => HookCaller.remove_plugin hc p.pid) hname
  refine ⟨rfl, ?_, ?_, ?_, ?_, hmap, ?_⟩
  · rw [hu]
    show dget (unregisterResolved pm p none).plugin2name p.pid = none
    rw [hur]
    exact dget_dpop_self pm.plugin2name p.pid hnd2
  · intro q hq
    rw [hu]
    show dget (unregisterResolved pm p none).plugin2name q = _
    rw [hur]
    exact dget_dpop_ne pm.plugin2name p.pid q hq
  · rw [hu]
    show dget (unregisterResolved pm p none).name2plugin pn = none
    rw [hur]
    exact dget_dpop_self pm.name2plugin pn hnd1
  · intro m hm
    rw [hu]
    show dget (unregisterResolved pm p none).name2plugin m = _
    rw [hur]
    exact dget_dpop_ne pm.name2plugin pn m hm
  · intro hname hc hc' hhc hhc'
    rw [hmap hname, hhc] at hhc'
    have hc'eq : hc' = HookCaller.remove_plugin hc p.pid := by
      simpa using hhc'.symm
    subst hc'eq
    refine ⟨?_, ?_, ?_⟩
    · exact List.filter_sublist hc.hookimpls
    · intro i hi
      have := (List.mem_filter.mp hi).2
      simpa using this
    · intro i hi hip
      exact List.mem_filter.mpr ⟨hi, by simpa using hip⟩

/-- Witness for C6: unregistering plugin B from the two-plugin manager
returns B and drops its name binding. -/
theorem unregister_removes_plugin_impls_witness :
    (unregister pmAB (some pluginB) none).2 = some pluginB ∧
    dget (unregister pmAB (some pluginB) none).1.name2plugin "B" = none := by
  have h := unregister_removes_plugin_impls pmAB pluginB "B" rfl (by decide) (by decide)
  exact ⟨h.1, h.2.2.2.1⟩

/-- C10: calling unregister with plugin A and the distinct name of another
registered plugin B unregisters A and additionally removes B's name binding,
so B stays registered by identity but is no longer reachable by name. -/
theorem unregister_cross_name_removes_other_binding (pm : PluginManager)
    (pA pB : Plugin) (nA nB : String)
    (hA : dget pm.plugin2name pA.pid = some nA)
    (hB : dget pm.plugin2name pB.pid = some nB)
    (hne : nA ≠ nB)
    (hnd1 : dkeysNodup pm.name2plugin) (hnd2 : dkeysNodup pm.plugin2name) :
    (unregister pm (some pA) (some nB)).2 = some pA ∧
    dget (unregister pm (some pA) (some nB)).1.plugin2name pA.pid = none ∧
    is_registered (unregister pm (some pA) (some nB)).1 pB = true ∧
    dget (unregister pm (some pA) (some nB)).1.name2plugin nB = none ∧
    ∀ e ∈ list_name_plugin (unregister pm (some pA) (some nB)).1, e.1 ≠ nB := by
  have hpid : pA.pid ≠ pB.pid := by
    intro h
    rw [h, hB] at hA
    exact hne (Option.some.inj hA).symm
  have hu : unregister pm (some pA) (some nB) = (unregisterResolved pm pA (some nB), some pA) := rfl
  have hur : unregisterResolved pm pA (some nB) =
      { pm with
          name2plugin := dpop (dpop pm.name2plugin nA) nB,
          plugin2name := dpop pm.plugin2name pA.pid,
          hook := pm.hook.map (fun e => (e.1, e.2.remove_plugin pA.pid)) } := by
    simp [unregisterResolved, hA, hne]
  have hnB : dget (dpop (dpop pm.name2plugin nA) nB) nB = none :=
    dget_dpop_self (dpop pm.name2plugin nA) nB (dkeysNodup_dpop pm.name2plugin nA hnd1)
  refine ⟨rfl, ?_, ?_, ?_, ?_⟩
  · rw [hu]
    show dget (unregisterResolved pm pA (some nB)).plugin2name pA.pid = none
    rw [hur]
    exact dget_dpop_self pm.plugin2name pA.pid hnd2
  · rw [hu]
    show is_registered (unregisterResolved pm pA (some nB)) pB = true
    rw [hur]
    show (dget (dpop pm.plugin2name pA.pid) pB.pid).isSome = true
    rw [dget_dpop_ne pm.plugin2name pA.pid pB.pid (Ne.symm hpid), hB]
    rfl
  · rw [hu]
    show dget (unregisterResolved pm pA (some nB)).name2plugin nB = none
    rw [hur]
    exact hnB
  · intro e he
    rw [hu] at he
    have he' : e ∈ dpop (dpop pm.name2plugin nA) nB := by
      rw [show list_name_plugin (unregisterResolved pm pA (some nB), some pA).1 =
            dpop (dpop pm.name2plugin nA) nB from by rw [list_name_plugin, hur]] at he
      exact he
    exact not_mem_of_dget_eq_none _ nB hnB e he'

/-- Witness for C10: after unregistering A with B's name supplied, B is still
registered by identity while the name binding for B is gone. -/
theorem unregister_cross_name_removes_other_binding_witness :
    is_registered (unregister pmAB (some pluginA) (some "B")).1 pluginB = true ∧
    dget (unregister pmAB (some pluginA) (some "B")).1.name2plugin "B" = none := by
  have h := unregister_cross_name_removes_other_binding pmAB pluginA pluginB "A" "B"
    rfl rfl (by decide) (by decide) (by decide)
  exact ⟨h.2.2.1, h.2.2.2.1⟩

/-- After popping a plugin's identity entry, the name-table direction of the
consistency invariant survives for any name table whose entries come from the
old one and avoid the popped plugin's recorded name. -/
theorem dir1_after_dpop (pm : PluginManager) (p : Plugin)
    (h3 : ∀ e ∈ pm.name2plugin, dget pm.plugin2name e.2.pid = some e.1)
    (N2 : List (String × Plugin))
    (hsub : ∀ e ∈ N2, e ∈ pm.name2plugin)
    (hnotpn : ∀ e ∈ N2, ∀ pn, dget pm.plugin2name p.pid = some pn → e.1 ≠ pn) :
    ∀ e ∈ N2, dget (dpop pm.plugin2name p.pid) e.2.pid = some e.1 := by
  intro e he
  have hold := h3 e (hsub e he)
  by_cases hp : e.2.pid = p.pid
  · rw [hp] at hold
    exact absurd rfl (hnotpn e he e.1 hold)
  · rw [dget_dpop_ne pm.plugin2name p.pid e.2.pid hp]
    exact hold

/-- The mutation body of unregister preserves the maintained table
invariant. -/
theorem managerInv_unregisterResolved (pm : PluginManager) (p : Plugin) (nm : Option String)
    (hInv : managerInv pm) : managerInv (unregisterResolved pm p nm) := by
  obtain ⟨h1, h2, h3⟩ := hInv
  have hplug : (unregisterResolved pm p nm).plugin2name = dpop pm.plugin2name p.pid := rfl
  cases hpn : dget pm.plugin2name p.pid with
  | none =>
    have hnot : ∀ (N2 : List (String × Plugin)), ∀ e ∈ N2, ∀ pn,
        dget pm.plugin2name p.pid = some pn → e.1 ≠ pn := by
      intro N2 e _ pn hsome
      rw [hpn] at hsome
      exact Option.noConfusion hsome
    cases nm with
    | none =>
      have hname : (unregisterResolved pm p none).name2plugin = pm.name2plugin := by
        simp [unregisterResolved, hpn]
      refine ⟨?_, ?_, ?_⟩
      · rw [hname]; exact h1
      · rw [hplug]; exact dkeysNodup_dpop _ _ h2
      · intro e he
        rw [hname] at he
        rw [hplug]
        exact dir1_after_dpop pm p h3 pm.name2plugin (fun f hf => hf) (hnot _) e he
    | some n =>
      have hname : (unregisterResolved pm p (some n)).name2plugin = dpop pm.name2plugin n := by
        simp [unregisterResolved, hpn]
      refine ⟨?_, ?_, ?_⟩
      · rw [hname]; exact dkeysNodup_dpop _ _ h1
      · rw [hplug]; exact dkeysNodup_dpop _ _ h2
      · intro e he
        rw [hname] at he
        rw [hplug]
        exact dir1_after_dpop pm p h3 (dpop pm.name2plugin n)
          (fun f hf => mem_dpop_subset _ _ _ hf) (hnot _) e he
  | some pn0 =>
    have hnot : ∀ e ∈ dpop pm.name2plugin pn0, ∀ pn,
        dget pm.plugin2name p.pid = some pn → e.1 ≠ pn := by
      intro e he pn hsome
      rw [hpn] at hsome
      have hpn0 : pn = pn0 := (Option.some.inj hsome).symm
      subst hpn0
      exact (mem_dpop pm.name2plugin pn e h1 he).2
    cases nm with
    | none =>
      have hname : (unregisterResolved pm p none).name2plugin = dpop pm.name2plugin pn0 := by
        simp [unregisterResolved, hpn]
      refine ⟨?_, ?_, ?_⟩
      · rw [hname]; exact dkeysNodup_dpop _ _ h1
      · rw [hplug]; exact dkeysNodup_dpop _ _ h2
      · intro e he
        rw [hname] at he
        rw [hplug]
        exact dir1_after_dpop pm p h3 (dpop pm.name2plugin pn0)
          (fun f hf => mem_dpop_subset _ _ _ hf) hnot e he
    | some n =>
      by_cases hcond : pn0 = n
      · subst hcond
        have hname : (unregisterResolved pm p (some pn0)).name2plugin = dpop pm.name2plugin pn0 := by
          simp [unregisterResolved, hpn]
        refine ⟨?_, ?_, ?_⟩
        · rw [hname]; exact dkeysNodup_dpop _ _ h1
        · rw [hplug]; exact dkeysNodup_dpop _ _ h2
        · intro e he
          rw [hname] at he
          rw [hplug]
          exact dir1_after_dpop pm p h3 (dpop pm.name2plugin pn0)
            (fun f hf => mem_dpop_subset _ _ _ hf) hnot e he
      · have hname : (unregisterResolved pm p (some n)).name2plugin =
            dpop (dpop pm.name2plugin pn0) n := by
          simp [unregisterResolved, hpn, hcond]
        refine ⟨?_, ?_, ?_⟩
        · rw [hname]; exact dkeysNodup_dpop _ _ (dkeysNodup_dpop _ _ h1)
        · rw [hplug]; exact dkeysNodup_dpop _ _ h2
        · intro e he
          rw [hname] at he
          rw [hplug]
          exact dir1_after_dpop pm p h3 (dpop (dpop pm.name2plugin pn0) n)
            (fun f hf => mem_dpop_subset _ _ _ (mem_dpop_subset _ _ _ hf))
            (fun f hf => hnot f (mem_dpop_subset _ _ _ hf)) e he

/-- Register preserves the maintained table invariant. -/
theorem managerInv_register (pm : PluginManager) (p : Plugin) (nm : Option String)
    (h : managerInv pm) : managerInv (register pm p nm).1 := by
  obtain ⟨h1, h2, h3⟩ := h
  cases hd : dget pm.plugin2name p.pid with
  | some s =>
    have : (register pm p nm).1 = pm := by simp [register, hd]
    rw [this]
    exact ⟨h1, h2, h3⟩
  | none =>
    have hreg : (register pm p nm).1 =
        { pm with
            name2plugin := dset pm.name2plugin (resolve_plugin_name p nm) p,
            plugin2name := dset pm.plugin2name p.pid (resolve_plugin_name p nm),
            hook := scanPlugin pm.hook p (resolve_plugin_name p nm) } := by
      simp [register, hd]
    rw [hreg]
    refine ⟨dkeysNodup_dset _ _ _ h1, dkeysNodup_dset _ _ _ h2, ?_⟩
    intro e he
    rcases mem_dset pm.name2plugin (resolve_plugin_name p nm) p e h1 he with heq | ⟨hm, _⟩
    · subst heq
      exact dget_dset_self pm.plugin2name p.pid (resolve_plugin_name p nm)
    · have hold := h3 e hm
      by_cases hp : e.2.pid = p.pid
      · rw [hp] at hold
        rw [hd] at hold
        exact Option.noConfusion hold
      · rw [dget_dset_ne pm.plugin2name p.pid e.2.pid (resolve_plugin_name p nm) hp]
        exact hold

/-- Unregister preserves the maintained table invariant. -/
theorem managerInv_unregister (pm : PluginManager) (pl : Option Plugin) (nm : Option String)
    (h : managerInv pm) : managerInv (unregister pm pl nm).1 := by
  cases hres : resolveTarget pm pl nm with
  | none =>
    have : (unregister pm pl nm).1 = pm := by simp [unregister, hres]
    rw [this]
    exact h
  | some p =>
    have : (unregister pm pl nm).1 = unregisterResolved pm p nm := by
      simp [unregister, hres]
    rw [this]
    exact managerInv_unregisterResolved pm p nm h

/-- Any single lifecycle operation preserves the maintained table
invariant. -/
theorem managerInv_applyOp (pm : PluginManager) (op : MgrOp) (h : managerInv pm) :
    managerInv (applyOp pm op) := by
  cases op with
  | reg p n => exact managerInv_register pm p n h
  | unreg pl n => exact managerInv_unregister pm pl n h

/-- Folding lifecycle operations preserves the maintained table invariant. -/
theorem managerInv_foldl (ops : List MgrOp) (pm : PluginManager) (h : managerInv pm) :
    managerInv (ops.foldl applyOp pm) := by
  induction ops generalizing pm with
  | nil => exact h
  | cons op rest ih => exact ih (applyOp pm op) (managerInv_applyOp pm op h)

/-- C8 counterexample: registering two distinct plugin objects under the same
explicit name leaves both identity-table entries pointing at the name while
the name table holds only the second plugin, so full mutual consistency of
the two tables fails. -/
theorem register_name_collision_breaks_mutual_consistency :
    ¬ claimMutual (runOps collidingOps) := by decide

/-- C8 amended: over every sequence of register and unregister operations
from a fresh manager, each plugin identity appears at most once in the
identity table, each name at most once in the name table, and every
name-table binding is matched by the identity table; the reverse direction
of mutual consistency is not maintained. -/
theorem manager_tables_invariant (ops : List MgrOp) : managerInv (runOps ops) :=
  managerInv_foldl ops freshManager
    ⟨List.nodup_nil, List.nodup_nil, by intro e he; simp [freshManager] at he⟩

/-! Lemmas and theorems about the entry-point loader. -/

theorem processPairs_append (group : String) (l1 l2 : List (EntryPointData × Distribution))
    (acc : PluginManager × Nat) :
    processPairs group (l1 ++ l2) acc = processPairs group l2 (processPairs group l1 acc) := by
  induction l1 generalizing acc with
  | nil => rfl
  | cons pr rest ih =>
    obtain ⟨ep, d⟩ := pr
    show processPairs group (rest ++ l2) (processEp group d acc ep) = _
    exact ih (processEp group d acc ep)

theorem foldl_eps_eq_processPairs (group : String) (d : Distribution)
    (eps : List EntryPointData) (acc : PluginManager × Nat) :
    eps.foldl (processEp group d) acc =
      processPairs group (eps.map (fun ep => (ep, d))) acc := by
  induction eps generalizing acc with
  | nil => rfl
  | cons ep rest ih =>
    show rest.foldl (processEp group d) (processEp group d acc ep) = _
    exact ih (processEp group d acc ep)

theorem load_eq_processPairs (pm : PluginManager) (dists : List Distribution) (group : String) :
    load_setuptools_entrypoints pm dists group = processPairs group (epPairs dists) (pm, 0) := by
  show dists.foldl (fun acc d => d.entry_points.foldl (processEp group d) acc) (pm, 0) = _
  generalize (pm, 0) = acc
  induction dists generalizing acc with
  | nil => rfl
  | cons d rest ih =>
    show rest.foldl _ (d.entry_points.foldl (processEp group d) acc) = _
    rw [show epPairs (d :: rest) = d.entry_points.map (fun ep => (ep, d)) ++ epPairs rest from rfl,
      processPairs_append, ← foldl_eps_eq_processPairs group d d.entry_points acc]
    exact ih _

theorem register_fresh_fields (pm : PluginManager) (p : Plugin) (n : String)
    (hn : n ≠ "") (hfresh : dget pm.plugin2name p.pid = none) :
    (register pm p (some n)).1.name2plugin = dset pm.name2plugin n p ∧
    (register pm p (some n)).1.plugin2name = dset pm.plugin2name p.pid n ∧
    (register pm p (some n)).1.plugin_distinfo = pm.plugin_distinfo := by
  have hres : resolve_plugin_name p (some n) = n := by simp [resolve_plugin_name, hn]
  refine ⟨?_, ?_, ?_⟩ <;> simp [register, hfresh, hres]

theorem processPairs_fresh (group : String) (prs : List (EntryPointData × Distribution))
    (pm : PluginManager) (c : Nat)
    (h : freshFor pm (prs.filter (fun pr => epSelected group pr.1))) :
    (processPairs group prs (pm, c)).2 =
      c + (prs.filter (fun pr => epSelected group pr.1)).length ∧
    (∀ pr ∈ prs.filter (fun pr => epSelected group pr.1),
      ∃ q, dget (processPairs group prs (pm, c)).1.name2plugin pr.1.name = some q ∧
        q.pid = (epLoadPlugin pr.1).pid) ∧
    (processPairs group prs (pm, c)).1.plugin_distinfo =
      pm.plugin_distinfo ++ (prs.filter (fun pr => epSelected group pr.1)).map
        (fun pr => (epLoadPlugin pr.1, mkFacade pr.2)) ∧
    (∀ n, (∀ pr ∈ prs.filter (fun pr => epSelected group pr.1), pr.1.name ≠ n) →
      dget (processPairs group prs (pm, c)).1.name2plugin n = dget pm.name2plugin n) := by
  induction prs generalizing pm c with
  | nil =>
    refine ⟨by simp [processPairs], by simp, by simp [processPairs], ?_⟩
    intro n _
    rfl
  | cons pr0 rest ih =>
    obtain ⟨ep, d⟩ := pr0
    by_cases hsel : epSelected group ep = true
    · have hfil : ((ep, d) :: rest).filter (fun pr => epSelected group pr.1) =
          (ep, d) :: rest.filter (fun pr => epSelected group pr.1) := by
        simp [List.filter_cons, hsel]
      rw [hfil] at h
      obtain ⟨hnames, hpids, hall⟩ := h
      rw [List.map_cons] at hnames hpids
      obtain ⟨hne, hnb0, hfresh0⟩ := hall (ep, d) (List.mem_cons_self _ _)
      have hnb : dget pm.name2plugin ep.name = none := Option.isNone_iff_eq_none.mp hnb0
      have hand : ep.group = group ∧ ep.load.isSome = true := by
        have hx := hsel
        rw [show epSelected group ep = ((ep.group == group) && ep.load.isSome) from rfl] at hx
        simpa using hx
      have hg : ep.group = group := hand.1
      obtain ⟨pl, hep⟩ := Option.isSome_iff_exists.mp hand.2
      have hepl : epLoadPlugin ep = pl := by
        show ep.load.getD _ = pl
        rw [hep]
        rfl
      have hfresh : dget pm.plugin2name pl.pid = none := by
        rw [← hepl]
        exact Option.isNone_iff_eq_none.mp hfresh0
      have hrf := register_fresh_fields pm pl ep.name hne hfresh
      have hstep : processEp group d (pm, c) ep =
          ({ (register pm pl (some ep.name)).1 with
              plugin_distinfo := (register pm pl (some ep.name)).1.plugin_distinfo ++
                [(pl, mkFacade d)] }, c + 1) := by
        simp [processEp, hg, hnb, hep]
      have hT : freshFor
          ({ (register pm pl (some ep.name)).1 with
              plugin_distinfo := (register pm pl (some ep.name)).1.plugin_distinfo ++
                [(pl, mkFacade d)] })
          (rest.filter (fun pr => epSelected group pr.1)) := by
        refine ⟨(List.nodup_cons.mp hnames).2, (List.nodup_cons.mp hpids).2, ?_⟩
        intro pr hpr
        obtain ⟨hne', hnb', hfresh'⟩ := hall pr (List.mem_cons_of_mem _ hpr)
        have hself : pr.1.name ≠ ep.name := by
          intro heq
          exact (List.nodup_cons.mp hnames).1
            (heq ▸ List.mem_map_of_mem (fun pr => pr.1.name) hpr)
        have hpid' : (epLoadPlugin pr.1).pid ≠ pl.pid := by
          intro heq
          apply (List.nodup_cons.mp hpids).1
          have : (epLoadPlugin pr.1).pid = (epLoadPlugin ep).pid := by rw [heq, hepl]
          exact this ▸ List.mem_map_of_mem (fun pr => (epLoadPlugin pr.1).pid) hpr
        refine ⟨hne', ?_, ?_⟩
        · show (dget (register pm pl (some ep.name)).1.name2plugin pr.1.name).isNone = true
          rw [hrf.1, dget_dset_ne pm.name2plugin ep.name pr.1.name pl hself]
          exact hnb'
        · show (dget (register pm pl (some ep.name)).1.plugin2name
              (epLoadPlugin pr.1).pid).isNone = true
          rw [hrf.2.1, dget_dset_ne pm.plugin2name pl.pid (epLoadPlugin pr.1).pid ep.name hpid']
          exact hfresh'
      have hI := ih ({ (register pm pl (some ep.name)).1 with
          plugin_distinfo := (register pm pl (some ep.name)).1.plugin_distinfo ++
            [(pl, mkFacade d)] }) (c + 1) hT
      obtain ⟨hIc, hIb, hId, hIp⟩ := hI
      have hPP : processPairs group ((ep, d) :: rest) (pm, c) =
          processPairs group rest
            ({ (register pm pl (some ep.name)).1 with
                plugin_distinfo := (register pm pl (some ep.name)).1.plugin_distinfo ++
                  [(pl, mkFacade d)] }, c + 1) := by
        rw [show processPairs group ((ep, d) :: rest) (pm, c) =
            processPairs group rest (processEp group d (pm, c) ep) from rfl, hstep]
      rw [hfil, hPP]
      have hheadnames : ∀ pr ∈ rest.filter (fun pr => epSelected group pr.1),
          pr.1.name ≠ ep.name := by
        intro pr hpr heq
        exact (List.nodup_cons.mp hnames).1
          (heq ▸ List.mem_map_of_mem (fun pr => pr.1.name) hpr)
      refine ⟨?_, ?_, ?_, ?_⟩
      · rw [hIc, List.length_cons]
        omega
      · intro pr hpr
        rcases List.mem_cons.mp hpr with heq | hmem
        · subst heq
          refine ⟨pl, ?_, (congrArg Plugin.pid hepl).symm⟩
          rw [hIp ep.name hheadnames]
          show dget (register pm pl (some ep.name)).1.name2plugin ep.name = some pl
          rw [hrf.1]
          exact dget_dset_self pm.name2plugin ep.name pl
        · exact hIb pr hmem
      · rw [hId]
        show (register pm pl (some ep.name)).1.plugin_distinfo ++ [(pl, mkFacade d)] ++ _ = _
        rw [hrf.2.2]
        simp [List.append_assoc, hepl]
      · intro n hn
        have hheadne : ep.name ≠ n := hn (ep, d) (List.mem_cons_self _ _)
        rw [hIp n (fun pr hpr => hn pr (List.mem_cons_of_mem _ hpr))]
        show dget (register pm pl (some ep.name)).1.name2plugin n = dget pm.name2plugin n
        rw [hrf.1]
        exact dget_dset_ne pm.name2plugin ep.name n pl (Ne.symm hheadne)
    · have hsel' : epSelected group ep = false := by simpa using hsel
      have hfil : ((ep, d) :: rest).filter (fun pr => epSelected group pr.1) =
          rest.filter (fun pr => epSelected group pr.1) := by
        simp [List.filter_cons, hsel']
      have hskip : processEp group d (pm, c) ep = (pm, c) := by
        by_cases hg : ep.group = group
        · have hload : ep.load = none := by
            cases hep : ep.load with
            | none => rfl
            | some pl =>
              exfalso
              have htrue : epSelected group ep = true := by
                rw [show epSelected group ep = ((ep.group == group) && ep.load.isSome) from rfl,
                  hg, hep]
                simp
              rw [htrue] at hsel'
              exact Bool.noConfusion hsel'
          simp [processEp, hg, hload, ite_self]
        · simp [processEp, hg]
      rw [hfil] at h
      have hPP : processPairs group ((ep, d) :: rest) (pm, c) =
          processPairs group rest (pm, c) := by
        rw [show processPairs group ((ep, d) :: rest) (pm, c) =
            processPairs group rest (processEp group d (pm, c) ep) from rfl, hskip]
      rw [hfil, hPP]
      exact ih pm c h

/-- C9 counterexample: one plugin object advertised under two entry-point
names in the matching group makes the loader report two successful
registrations while the second advertised name is never bound and only one
plugin is registered. -/
theorem entrypoint_duplicate_object_count_mismatch :
    (load_setuptools_entrypoints freshManager [dupDist] "g").2 = 2 ∧
    dget (load_setuptools_entrypoints freshManager [dupDist] "g").1.name2plugin "b" = none ∧
    (load_setuptools_entrypoints freshManager [dupDist] "g").1.plugin2name.length = 1 :=
  ⟨rfl, rfl, rfl⟩

/-- C9 amended: provided the matching, successfully loading entry points
carry pairwise-distinct nonempty names and pairwise-distinct plugin objects
none of which is already registered, the loader registers each loaded object
under its advertised name, records its distribution metadata in order, and
returns their count; without that proviso the count also includes entry
points whose loaded object was already registered by identity and whose
register call was therefore a no-op. -/
theorem entrypoint_load_fresh_registers_all (pm : PluginManager) (dists : List Distribution)
    (group : String) (h : freshFor pm (selectedPairs group dists)) :
    (load_setuptools_entrypoints pm dists group).2 = (selectedPairs group dists).length ∧
    (∀ pr ∈ selectedPairs group dists,
      ∃ q, dget (load_setuptools_entrypoints pm dists group).1.name2plugin pr.1.name = some q ∧
        q.pid = (epLoadPlugin pr.1).pid) ∧
    (load_setuptools_entrypoints pm dists group).1.plugin_distinfo =
      pm.plugin_distinfo ++ (selectedPairs group dists).map
        (fun pr => (epLoadPlugin pr.1, mkFacade pr.2)) := by
  have hmain := processPairs_fresh group (epPairs dists) pm 0 h
  obtain ⟨hc, hb, hd, _⟩ := hmain
  rw [load_eq_processPairs]
  refine ⟨?_, hb, hd⟩
  rw [hc, Nat.zero_add]
  rfl

/-- Witness for C9's amended statement: a distribution with two fresh
matching entry points, one foreign-group entry point and one failing load
yields count 2 and binds the advertised name of the second plugin. -/
theorem entrypoint_load_fresh_registers_all_witness :
    (load_setuptools_entrypoints freshManager [witDist] "g").2 = 2 ∧
    (∃ q, dget (load_setuptools_entrypoints freshManager [witDist] "g").1.name2plugin "b" =
      some q ∧ q.pid = 12) := by
  have h := entrypoint_load_fresh_registers_all freshManager [witDist] "g" (by decide)
  refine ⟨?_, ?_⟩
  · rw [h.1]
    rfl
  · have hm : ((⟨"g", "b", some pluginP2⟩ : EntryPointData), witDist) ∈
        selectedPairs "g" [witDist] := by
      rw [show selectedPairs "g" [witDist] =
          [((⟨"g", "a", some pluginP1⟩ : EntryPointData), witDist),
           ((⟨"g", "b", some pluginP2⟩ : EntryPointData), witDist)] from rfl]
      exact List.mem_cons_of_mem _ (List.mem_cons_self _ _)
    exact h.2.1 _ hm
